import Mathlib

/-!
Verification development for the dynamic-context-pruning core.

The definitions below are a shallow embedding of the repository's source:
`src/lib/tools/distill.ts` (content extraction, exact/fuzzy string
resolution, the distill tool's argument validation) and the Anthropic
format adapter (detection chain, system-message injection, tool-output
replacement).  JavaScript's dynamically typed values are modelled by
`JVal` (a string, or some other value remembered together with its
truthiness and its JSON stringification); absent object fields are
modelled by `Option`.
-/

namespace DCP

/-- A JavaScript value as far as the embedded code inspects it: either a
string, or a non-string value of which only the truthiness and the
`JSON.stringify` rendering matter to the code. -/
inductive JVal where
  | jstr (s : String)
  | jother (truthy : Bool) (stringified : String)
deriving DecidableEq, Repr

/-- JavaScript truthiness of a value (`if (v)`): a string is truthy iff
nonempty; other values carry their truthiness explicitly. -/
def JVal.isTruthy : JVal → Bool
  | .jstr s => s ≠ ""
  | .jother t _ => t

/-- `typeof v === "string" ? v : JSON.stringify(v)`. -/
def JVal.stringify : JVal → String
  | .jstr s => s
  | .jother _ s => s

/-- The `state` sub-record of a tool part (`part.state` in
`extractMessageContent`); every field may be absent. -/
structure ToolState where
  status : Option JVal
  output : Option JVal
  error : Option JVal
  input : Option JVal
deriving DecidableEq, Repr

/-- A message part, tagged by `part.type` as the `switch` in
`extractMessageContent` reads it; `other` covers every type the switch
ignores. -/
inductive Part where
  | text (text : Option JVal)
  | reasoning (text : Option JVal)
  | tool (callID : Option String) (state : Option ToolState)
  | compaction (summary : Option JVal)
  | subtask (summary : Option JVal) (result : Option JVal)
  | other
deriving DecidableEq, Repr

/-- `msg.info` — only the stable identifier is read by this core. -/
structure MessageInfo where
  id : String
deriving DecidableEq, Repr

/-- A conversation message (`WithParts` in the source): identifier plus an
ordered part list.  A non-array `parts` field is normalised to `[]` by the
source (`Array.isArray(msg.parts) ? msg.parts : []`), so the empty list
represents it here. -/
structure WithParts where
  info : MessageInfo
  parts : List Part
deriving DecidableEq, Repr

/-- A previously generated compression summary: its text plus the
identifier of the anchor message it stands in for. -/
structure CompressSummary where
  summary : String
  anchorMessageId : String
deriving DecidableEq, Repr

/-- Match kind of a candidate. -/
inductive MatchType where
  | exact
  | fuzzy
deriving DecidableEq, Repr

/-- Transient output of the match engine (`MatchResult` in the source). -/
structure MatchResult where
  messageId : String
  messageIndex : Nat
  score : Nat
  matchType : MatchType
deriving DecidableEq, Repr

/-- Fuzzy-matching configuration (`FuzzyConfig`). -/
structure FuzzyConfig where
  minScore : Nat
  minGap : Nat
deriving DecidableEq, Repr

/-- `DEFAULT_FUZZY_CONFIG = { minScore: 85, minGap: 15 }`. -/
def DEFAULT_FUZZY_CONFIG : FuzzyConfig := ⟨85, 15⟩

/-- Character-list substring occurrence: `needle` occurs contiguously in
`hay`.  Backs the model of JavaScript's `String.prototype.includes`. -/
def charsInfix (needle : List Char) : List Char → Bool
  | [] => needle.isEmpty
  | c :: rest => needle.isPrefixOf (c :: rest) || charsInfix needle rest

/-- `hay.includes(needle)` on JavaScript strings. -/
def strIncludes (hay needle : String) : Bool :=
  charsInfix needle.data hay.data

/-- Text contributed to the extraction blob by one part; the `switch`
body of `extractMessageContent`, with each `content += " " + x`
rendered as appending `" " ++ x`. -/
def extractPart : Part → String
  | .text t =>
    match t with
    | some (.jstr s) => " " ++ s
    | _ => ""
  | .reasoning t =>
    match t with
    | some (.jstr s) => " " ++ s
    | _ => ""
  | .tool _ st =>
    match st with
    | none => ""
    | some st =>
      (if st.status = some (.jstr "completed") then
        match st.output with
        | some (.jstr s) => " " ++ s
        | _ => ""
      else if st.status = some (.jstr "error") then
        match st.error with
        | some (.jstr s) => " " ++ s
        | _ => ""
      else "") ++
      (match st.input with
      | some v => if v.isTruthy then " " ++ v.stringify else ""
      | none => "")
  | .compaction t =>
    match t with
    | some (.jstr s) => " " ++ s
    | _ => ""
  | .subtask s r =>
    (match s with
    | some (.jstr t) => " " ++ t
    | _ => "") ++
    (match r with
    | some (.jstr t) => " " ++ t
    | _ => "")
  | .other => ""

/-- `extractMessageContent(msg)`: fold of `content += …` over the parts
in order, starting from the empty string. -/
def extractMessageContent (msg : WithParts) : String :=
  msg.parts.foldl (fun content part => content ++ extractPart part) ""

/-- Accumulator threaded through the match loops: the `matches` array and
the `seenMessageIds` set (modelled as a list). -/
abbrev MatchAcc := List MatchResult × List String

/-- First loop of `findExactMatches`: scan the compress summaries,
anchoring each literal hit at `messages.findIndex` of its anchor id,
skipping anchors already claimed. -/
def findExactSummaryLoop (messages : List WithParts) (searchString : String) :
    List CompressSummary → MatchAcc → MatchAcc
  | [], acc => acc
  | s :: rest, (ms, seen) =>
    if strIncludes s.summary searchString then
      match List.findIdx? (fun m => m.info.id == s.anchorMessageId) messages with
      | some idx =>
        if seen.contains s.anchorMessageId then
          findExactSummaryLoop messages searchString rest (ms, seen)
        else
          findExactSummaryLoop messages searchString rest
            (ms ++ [⟨s.anchorMessageId, idx, 100, .exact⟩], s.anchorMessageId :: seen)
      | none => findExactSummaryLoop messages searchString rest (ms, seen)
    else findExactSummaryLoop messages searchString rest (ms, seen)

/-- Second loop of `findExactMatches`: scan the raw messages (the index
counter `i` mirrors the `for (let i = 0; …)` loop), skipping identifiers
already claimed by a summary hit. -/
def findExactMessageLoop (searchString : String) :
    Nat → List WithParts → MatchAcc → MatchAcc
  | _, [], acc => acc
  | i, msg :: rest, (ms, seen) =>
    if seen.contains msg.info.id then
      findExactMessageLoop searchString (i + 1) rest (ms, seen)
    else if strIncludes (extractMessageContent msg) searchString then
      findExactMessageLoop searchString (i + 1) rest
        (ms ++ [⟨msg.info.id, i, 100, .exact⟩], msg.info.id :: seen)
    else findExactMessageLoop searchString (i + 1) rest (ms, seen)

/-- `findExactMatches(messages, searchString, compressSummaries)`. -/
def findExactMatches (messages : List WithParts) (searchString : String)
    (compressSummaries : List CompressSummary) : List MatchResult :=
  (findExactMessageLoop searchString 0 messages
    (findExactSummaryLoop messages searchString compressSummaries ([], []))).1

/-- First loop of `findFuzzyMatches` over the compress summaries; `pr`
stands for the external `partial_ratio(searchString, text)` scorer. -/
def findFuzzySummaryLoop (messages : List WithParts) (searchString : String)
    (pr : String → String → Nat) (minScore : Nat) :
    List CompressSummary → MatchAcc → MatchAcc
  | [], acc => acc
  | s :: rest, (ms, seen) =>
    let score := pr searchString s.summary
    if minScore ≤ score then
      match List.findIdx? (fun m => m.info.id == s.anchorMessageId) messages with
      | some idx =>
        if seen.contains s.anchorMessageId then
          findFuzzySummaryLoop messages searchString pr minScore rest (ms, seen)
        else
          findFuzzySummaryLoop messages searchString pr minScore rest
            (ms ++ [⟨s.anchorMessageId, idx, score, .fuzzy⟩], s.anchorMessageId :: seen)
      | none => findFuzzySummaryLoop messages searchString pr minScore rest (ms, seen)
    else findFuzzySummaryLoop messages searchString pr minScore rest (ms, seen)

/-- Second loop of `findFuzzyMatches` over the raw messages. -/
def findFuzzyMessageLoop (searchString : String) (pr : String → String → Nat)
    (minScore : Nat) : Nat → List WithParts → MatchAcc → MatchAcc
  | _, [], acc => acc
  | i, msg :: rest, (ms, seen) =>
    if seen.contains msg.info.id then
      findFuzzyMessageLoop searchString pr minScore (i + 1) rest (ms, seen)
    else
      let score := pr searchString (extractMessageContent msg)
      if minScore ≤ score then
        findFuzzyMessageLoop searchString pr minScore (i + 1) rest
          (ms ++ [⟨msg.info.id, i, score, .fuzzy⟩], msg.info.id :: seen)
      else findFuzzyMessageLoop searchString pr minScore (i + 1) rest (ms, seen)

/-- `findFuzzyMatches(messages, searchString, compressSummaries, minScore)`. -/
def findFuzzyMatches (messages : List WithParts) (searchString : String)
    (compressSummaries : List CompressSummary) (pr : String → String → Nat)
    (minScore : Nat) : List MatchResult :=
  (findFuzzyMessageLoop searchString pr minScore 0 messages
    (findFuzzySummaryLoop messages searchString pr minScore compressSummaries ([], []))).1

/-- Stable insertion preserving descending score order: an element is
placed before the first entry whose score does not exceed it. -/
def insertDesc (x : MatchResult) : List MatchResult → List MatchResult
  | [] => [x]
  | y :: ys => if y.score ≤ x.score then x :: y :: ys else y :: insertDesc x ys

/-- Stable sort by score descending, the model of
`fuzzyMatches.sort((a, b) => b.score - a.score)` (V8's stable sort). -/
def sortByScoreDesc : List MatchResult → List MatchResult
  | [] => []
  | x :: xs => insertDesc x (sortByScoreDesc xs)

/-- The three failure modes of `findStringInMessages`, in the order of
their `throw` sites; the first and third are the spec's `AmbiguousMatch`,
the second its `NotFound`. -/
inductive FindError where
  | multipleExactMatches
  | notFound
  | ambiguousFuzzyMatch
deriving DecidableEq, Repr

/-- The successful return value `{ messageId, messageIndex }`. -/
structure Loc where
  messageId : String
  messageIndex : Nat
deriving DecidableEq, Repr

/-- The `logger.info` line emitted on a fuzzy acceptance. -/
def fuzzyLog (stringType : String) (best : MatchResult) : String :=
  "Fuzzy matched " ++ stringType ++ " with " ++ toString best.score ++
    "% confidence at message index " ++ toString best.messageIndex

/-- `findStringInMessages`: exact phase, then fuzzy phase with score
floor and confidence gap.  The thrown errors become `Except.error`; the
second component collects the `logger.info` messages emitted. -/
def findStringInMessages (messages : List WithParts) (searchString : String)
    (compressSummaries : List CompressSummary) (stringType : String)
    (fuzzyConfig : FuzzyConfig) (pr : String → String → Nat) :
    Except FindError Loc × List String :=
  match findExactMatches messages searchString compressSummaries with
  | [e] => (.ok ⟨e.messageId, e.messageIndex⟩, [])
  | _ :: _ :: _ => (.error .multipleExactMatches, [])
  | [] =>
    match sortByScoreDesc
      (findFuzzyMatches messages searchString compressSummaries pr fuzzyConfig.minScore) with
    | [] => (.error .notFound, [])
    | [best] => (.ok ⟨best.messageId, best.messageIndex⟩, [fuzzyLog stringType best])
    | best :: secondBest :: _ =>
      if (best.score : Int) - (secondBest.score : Int) < (fuzzyConfig.minGap : Int) then
        (.error .ambiguousFuzzyMatch, [])
      else (.ok ⟨best.messageId, best.messageIndex⟩, [fuzzyLog stringType best])

/-- Loop invariant backing deduplication: the collected message
identifiers are pairwise distinct and all recorded in the seen set. -/
def AccInv (acc : MatchAcc) : Prop :=
  (acc.1.map MatchResult.messageId).Nodup ∧ ∀ e ∈ acc.1, e.messageId ∈ acc.2

/-- Loop invariant for the summary scan: every seen identifier already
has its exact candidate, anchored at the first index carrying it. -/
def SummaryEntryInv (messages : List WithParts) (acc : MatchAcc) : Prop :=
  ∀ id ∈ acc.2, ∃ j, List.findIdx? (fun m => m.info.id == id) messages = some j ∧
    (⟨id, j, 100, .exact⟩ : MatchResult) ∈ acc.1

def exMsg1 : WithParts := ⟨⟨"m1"⟩, [.text (some (.jstr "alpha beta"))]⟩

def exMsg2 : WithParts := ⟨⟨"m2"⟩, [.text (some (.jstr "gamma delta"))]⟩

def exSummary : CompressSummary := ⟨"summarized needle content", "m2"⟩

def exOrphan : CompressSummary := ⟨"orphan needle content", "m9"⟩

/-- Fragment contributed by one optional field under the spec's reading:
a present string contributes its text, a non-string or absent field
contributes nothing. -/
def specTextPiece : Option JVal → List String
  | some (.jstr s) => [s]
  | _ => []

/-- The claim's reading of the Content Extractor, per part: text and
reasoning text; for tool parts the completed output or the error string,
followed by the input, JSON-stringified when not already a string (every
present input is included); for compaction parts the summary; for
subtask parts the summary then the result. -/
def partPiecesClaimed : Part → List String
  | .text t => specTextPiece t
  | .reasoning t => specTextPiece t
  | .tool _ st =>
    match st with
    | none => []
    | some st =>
      (if st.status = some (.jstr "completed") then specTextPiece st.output
       else if st.status = some (.jstr "error") then specTextPiece st.error
       else []) ++
      (match st.input with
       | some v => [v.stringify]
       | none => [])
  | .compaction t => specTextPiece t
  | .subtask s r => specTextPiece s ++ specTextPiece r
  | .other => []

/-- The claim amended: as `partPiecesClaimed`, except that the tool
input is included only when truthy (the source guards it with
`if (state.input)`). -/
def partPiecesAmended : Part → List String
  | .text t => specTextPiece t
  | .reasoning t => specTextPiece t
  | .tool _ st =>
    match st with
    | none => []
    | some st =>
      (if st.status = some (.jstr "completed") then specTextPiece st.output
       else if st.status = some (.jstr "error") then specTextPiece st.error
       else []) ++
      (match st.input with
       | some v => if v.isTruthy then [v.stringify] else []
       | none => [])
  | .compaction t => specTextPiece t
  | .subtask s r => specTextPiece s ++ specTextPiece r
  | .other => []

/-- Space-separated concatenation of the collected fragments, each
fragment preceded by one separating space (the source's convention). -/
def piecesConcat (pieces : List String) : String :=
  String.join (pieces.map (fun s => " " ++ s))

/-- The extractor as the claim words it. -/
def extractSpecClaimed (msg : WithParts) : String :=
  piecesConcat (msg.parts.flatMap partPiecesClaimed)

/-- The extractor as the amended claim words it. -/
def extractSpecAmended (msg : WithParts) : String :=
  piecesConcat (msg.parts.flatMap partPiecesAmended)

/-- A completed tool part whose input is the (falsy, non-string)
JavaScript number `0`. -/
def exToolMsg : WithParts :=
  ⟨⟨"t1"⟩, [.tool (some "call_1")
    (some ⟨some (.jstr "completed"), some (.jstr "ok"), none, some (.jother false "0")⟩)]⟩

/-- A tool argument field as the validation inspects it: absent (or any
falsy stand-in), present but not an array, or an array of values. -/
inductive ArgField where
  | absent
  | nonArray
  | arr (xs : List JVal)
deriving DecidableEq, Repr

/-- JavaScript's `String.prototype.trim`: strip leading and trailing
whitespace. -/
def jsTrim (s : String) : String :=
  ⟨((s.data.dropWhile Char.isWhitespace).reverse.dropWhile Char.isWhitespace).reverse⟩

/-- `typeof id === "string" && id.trim() !== ""`. -/
def validIdEntry : JVal → Bool
  | .jstr s => jsTrim s ≠ ""
  | _ => false

/-- `typeof d === "string"`. -/
def isStringEntry : JVal → Bool
  | .jstr _ => true
  | _ => false

/-- The four `throw` sites of the distill tool's `execute`, in source
order. -/
inductive DistillError where
  | missingIds
  | invalidIds
  | missingDistillation
  | invalidDistillation
deriving DecidableEq, Repr

/-- The validation prefix of the distill tool's `execute`: the four
sequential checks, and on success the call to `executePruneOperation`
with the validated arrays (represented by returning them). -/
def distillExecute (ids distillation : ArgField) :
    Except DistillError (List JVal × List JVal) :=
  match ids with
  | .absent => .error .missingIds
  | .nonArray => .error .missingIds
  | .arr xs =>
    if xs.isEmpty then .error .missingIds
    else if !xs.all validIdEntry then .error .invalidIds
    else
      match distillation with
      | .absent => .error .missingDistillation
      | .nonArray => .error .missingDistillation
      | .arr ds =>
        if ds.isEmpty then .error .missingDistillation
        else if !ds.all isStringEntry then .error .invalidDistillation
        else .ok (xs, ds)

/-- A system-channel text block `{type: "text", text: …}`. -/
structure SysBlock where
  type : String
  text : Option String
deriving DecidableEq, Repr

/-- `{ type: "text", text: s }`. -/
def SysBlock.mkText (s : String) : SysBlock := ⟨"text", some s⟩

/-- The top-level `system` field: a string, an ordered list of blocks,
or some other (non-string, non-array) value. -/
inductive SystemChannel where
  | str (s : String)
  | blocks (bs : List SysBlock)
  | otherVal
deriving DecidableEq, Repr

/-- A content block inside a message's content array.  Modelled from the
spec: `lib/fetch-wrapper/formats/anthropic.ts` is absent from `src/`;
the fields follow the spec's wire-shape table (`type: "tool_result"`,
`tool_use_id`, `content`) and its frame condition naming `is_error` and
`cache_control` as sibling fields that must survive replacement. -/
structure ContentBlock where
  type : String
  tool_use_id : Option String
  content : Option JVal
  is_error : Option Bool
  cache_control : Option String
deriving DecidableEq, Repr

/-- A message's `content` field: a string, an array of blocks, or some
other value. -/
inductive MsgContent where
  | str (s : String)
  | blocks (bs : List ContentBlock)
  | otherVal
deriving DecidableEq, Repr

/-- One entry of the request body's `messages` array. -/
structure ReqMessage where
  role : String
  content : MsgContent
deriving DecidableEq, Repr

/-- The `messages` field: an array of messages or a non-array value. -/
inductive MessagesField where
  | arr (ms : List ReqMessage)
  | nonArray
deriving DecidableEq, Repr

/-- An outbound request body, restricted to the top-level fields the
detection chain and the Anthropic adapter inspect; `none` is an absent
(`undefined`) field. -/
structure RequestBody where
  system : Option SystemChannel
  messages : Option MessagesField
  inferenceConfig : Option Unit
  input : Option Unit
  contents : Option Unit
deriving DecidableEq, Repr

/-- `Array.isArray(body.messages)`. -/
def RequestBody.messagesIsArray (b : RequestBody) : Bool :=
  match b.messages with
  | some (.arr _) => true
  | _ => false

/-- `anthropicFormat.detect`, the verbatim snippet in
`src/unnamed/part_000`: `body.system !== undefined &&
Array.isArray(body.messages)`. -/
def anthropicDetect (b : RequestBody) : Bool :=
  b.system.isSome && b.messagesIsArray

/-- Modelled from the spec: the OpenAI Responses predicate — the actual
`lib/fetch-wrapper/formats` sources are absent from `src/` — detects the
flat-input shape, "has body.input (not body.messages)". -/
def openaiResponsesDetect (b : RequestBody) : Bool :=
  b.input.isSome && !b.messagesIsArray

/-- Modelled from the spec: the Bedrock predicate detects "body.system +
body.inferenceConfig + body.messages", the strict superset signature
that must be excluded before Anthropic is tried. -/
def bedrockDetect (b : RequestBody) : Bool :=
  b.system.isSome && b.inferenceConfig.isSome && b.messagesIsArray

/-- Modelled from the spec: the OpenAI Chat predicate detects "a shape
carrying only a messages array"; the top-level system channel is not
excluded here, which is why the chain's ordering is load-bearing. -/
def openaiChatDetect (b : RequestBody) : Bool :=
  b.messagesIsArray

/-- Modelled from the spec: the Gemini predicate detects "body.contents". -/
def geminiDetect (b : RequestBody) : Bool :=
  b.contents.isSome

/-- The five format descriptors, in the chain's priority order. -/
inductive Format where
  | openaiResponses
  | bedrock
  | anthropic
  | openaiChat
  | gemini
deriving DecidableEq, Repr

/-- The dispatcher's detection chain from `lib/fetch-wrapper/index.ts`
as documented in `src/unnamed/part_000`: first predicate wins, evaluated
as OpenAI Responses, then Bedrock, then Anthropic, then OpenAI Chat,
then Gemini; `none` is the unknown-format outcome. -/
def detectFormat (b : RequestBody) : Option Format :=
  if openaiResponsesDetect b then some .openaiResponses
  else if bedrockDetect b then some .bedrock
  else if anthropicDetect b then some .anthropic
  else if openaiChatDetect b then some .openaiChat
  else if geminiDetect b then some .gemini
  else none

/-- `anthropicFormat.injectSystemMessage`, the verbatim snippet in
`src/unnamed/part_000`: a string system is first converted to a
one-block list, a non-array system is reset to the empty list, then the
injected text is appended as a text block; returns `true`. -/
def injectSystemMessage (b : RequestBody) (injection : String) : RequestBody × Bool :=
  let sys : List SysBlock :=
    match b.system with
    | some (.str s) => [SysBlock.mkText s]
    | some (.blocks bs) => bs
    | _ => []
  ({ b with system := some (.blocks (sys ++ [SysBlock.mkText injection])) }, true)

/-- Case-folding identifier normalization used for tool-result lookup
(`toLowerCase` in the documented adapter). -/
def normalizeId (s : String) : String := ⟨s.data.map Char.toLower⟩

/-- Modelled from the spec: a content block is a matching tool result
when its type is `tool_result` and its normalized `tool_use_id` equals
the normalized requested identifier. -/
def blockMatches (toolId : String) (b : ContentBlock) : Bool :=
  b.type == "tool_result" &&
    match b.tool_use_id with
    | some i => normalizeId i == normalizeId toolId
    | none => false

/-- Modelled from the spec: `replaceToolOutput` rewrites a matching
block by overwriting only its `content` field (`{...block, content:
prunedMessage}` in the documented snippet). -/
def replaceBlock (toolId newContent : String) (b : ContentBlock) : ContentBlock :=
  if blockMatches toolId b then { b with content := some (.jstr newContent) } else b

/-- Modelled from the spec: block-array contents are mapped through
`replaceBlock`; string or other contents are untouched. -/
def replaceInContent (toolId newContent : String) : MsgContent → MsgContent
  | .blocks bs => .blocks (bs.map (replaceBlock toolId newContent))
  | c => c

/-- Whether a message's content holds a matching tool-result block. -/
def contentHasMatch (toolId : String) : MsgContent → Bool
  | .blocks bs => bs.any (blockMatches toolId)
  | _ => false

/-- Modelled from the spec: `replaceToolOutput(data, toolId,
prunedMessage)` over the messages array (`lib/fetch-wrapper/formats/anthropic.ts`
is absent from `src/`): every matching `tool_result` block's content is
replaced, every other field and entry is preserved, and the boolean
reports whether any match was found (a miss is reported, not thrown). -/
def replaceToolOutput (msgs : List ReqMessage) (toolId newContent : String) :
    List ReqMessage × Bool :=
  (msgs.map (fun m => { m with content := replaceInContent toolId newContent m.content }),
   msgs.any (fun m => contentHasMatch toolId m.content))

/-- The test file's first body: string system plus messages array. -/
def exBody1 : RequestBody :=
  ⟨some (.str "You are a helpful assistant"), some (.arr []), none, none, none⟩

/-- The test file's seventh body: one user message holding one
tool-result block with identifier `toolu_456`. -/
def exReplaceMsg : ReqMessage :=
  ⟨"user", .blocks [⟨"tool_result", some "toolu_456", some (.jstr "Original content"),
    some false, some "ephemeral"⟩]⟩

theorem mem_exactMessageLoop (q : String) (e : MatchResult) :
    ∀ (l : List WithParts) (i : Nat) (acc : MatchAcc), e ∈ acc.1 →
      e ∈ (findExactMessageLoop q i l acc).1 := by
  intro l
  induction l with
  | nil => intro i acc h; exact h
  | cons m rest ih =>
    intro i acc h
    obtain ⟨ms, seen⟩ := acc
    simp only [findExactMessageLoop]
    split
    · exact ih _ _ h
    · split
      · exact ih _ _ (List.mem_append_left _ h)
      · exact ih _ _ h

theorem mem_exactSummaryLoop (messages : List WithParts) (q : String) (e : MatchResult) :
    ∀ (ss : List CompressSummary) (acc : MatchAcc), e ∈ acc.1 →
      e ∈ (findExactSummaryLoop messages q ss acc).1 := by
  intro ss
  induction ss with
  | nil => intro acc h; exact h
  | cons s rest ih =>
    intro acc h
    obtain ⟨ms, seen⟩ := acc
    simp only [findExactSummaryLoop]
    split
    · split
      · split
        · exact ih _ h
        · exact ih _ (List.mem_append_left _ h)
      · exact ih _ h
    · exact ih _ h

theorem accInv_push {ms : List MatchResult} {seen : List String} {x : MatchResult}
    (h : AccInv (ms, seen)) (hx : x.messageId ∉ seen) :
    AccInv (ms ++ [x], x.messageId :: seen) := by
  obtain ⟨h1, h2⟩ := h
  constructor
  · have hnotin : x.messageId ∉ ms.map MatchResult.messageId := by
      intro hmem
      obtain ⟨e, he, heq⟩ := List.mem_map.mp hmem
      exact hx (heq ▸ h2 e he)
    simp [List.nodup_append, h1, hnotin]
  · intro e he
    rcases List.mem_append.mp he with h' | h'
    · exact List.mem_cons_of_mem _ (h2 e h')
    · simp at h'
      subst h'
      exact List.mem_cons_self _ _

theorem accInv_exactSummaryLoop (messages : List WithParts) (q : String) :
    ∀ (ss : List CompressSummary) (acc : MatchAcc), AccInv acc →
      AccInv (findExactSummaryLoop messages q ss acc) := by
  intro ss
  induction ss with
  | nil => intro acc h; exact h
  | cons s rest ih =>
    intro acc h
    obtain ⟨ms, seen⟩ := acc
    simp only [findExactSummaryLoop]
    split
    · split
      · split
        · exact ih _ h
        · refine ih _ (accInv_push h ?_)
          simp_all
      · exact ih _ h
    · exact ih _ h

theorem accInv_exactMessageLoop (q : String) :
    ∀ (l : List WithParts) (i : Nat) (acc : MatchAcc), AccInv acc →
      AccInv (findExactMessageLoop q i l acc) := by
  intro l
  induction l with
  | nil => intro i acc h; exact h
  | cons m rest ih =>
    intro i acc h
    obtain ⟨ms, seen⟩ := acc
    simp only [findExactMessageLoop]
    split
    · exact ih _ _ h
    · split
      · refine ih _ _ (accInv_push h ?_)
        simp_all
      · exact ih _ _ h

theorem accInv_fuzzySummaryLoop (messages : List WithParts) (q : String)
    (pr : String → String → Nat) (minScore : Nat) :
    ∀ (ss : List CompressSummary) (acc : MatchAcc), AccInv acc →
      AccInv (findFuzzySummaryLoop messages q pr minScore ss acc) := by
  intro ss
  induction ss with
  | nil => intro acc h; exact h
  | cons s rest ih =>
    intro acc h
    obtain ⟨ms, seen⟩ := acc
    simp only [findFuzzySummaryLoop]
    split
    · split
      · split
        · exact ih _ h
        · refine ih _ (accInv_push h ?_)
          simp_all
      · exact ih _ h
    · exact ih _ h

theorem accInv_fuzzyMessageLoop (q : String) (pr : String → String → Nat) (minScore : Nat) :
    ∀ (l : List WithParts) (i : Nat) (acc : MatchAcc), AccInv acc →
      AccInv (findFuzzyMessageLoop q pr minScore i l acc) := by
  intro l
  induction l with
  | nil => intro i acc h; exact h
  | cons m rest ih =>
    intro i acc h
    obtain ⟨ms, seen⟩ := acc
    simp only [findFuzzyMessageLoop]
    split
    · exact ih _ _ h
    · split
      · refine ih _ _ (accInv_push h ?_)
        simp_all
      · exact ih _ _ h

theorem nodup_findExactMatches (messages : List WithParts) (q : String)
    (ss : List CompressSummary) :
    ((findExactMatches messages q ss).map MatchResult.messageId).Nodup := by
  have h : AccInv (([], []) : MatchAcc) := by constructor <;> simp [AccInv]
  exact (accInv_exactMessageLoop q messages 0 _
    (accInv_exactSummaryLoop messages q ss _ h)).1

theorem nodup_findFuzzyMatches (messages : List WithParts) (q : String)
    (ss : List CompressSummary) (pr : String → String → Nat) (minScore : Nat) :
    ((findFuzzyMatches messages q ss pr minScore).map MatchResult.messageId).Nodup := by
  have h : AccInv (([], []) : MatchAcc) := by constructor <;> simp [AccInv]
  exact (accInv_fuzzyMessageLoop q pr minScore messages 0 _
    (accInv_fuzzySummaryLoop messages q pr minScore ss _ h)).1

theorem exactSummaryLoop_entry (messages : List WithParts) (q : String) :
    ∀ (ss : List CompressSummary) (acc : MatchAcc), SummaryEntryInv messages acc →
      SummaryEntryInv messages (findExactSummaryLoop messages q ss acc) ∧
      (∀ s ∈ ss, strIncludes s.summary q = true →
        ∀ j, List.findIdx? (fun m => m.info.id == s.anchorMessageId) messages = some j →
          (⟨s.anchorMessageId, j, 100, .exact⟩ : MatchResult) ∈
            (findExactSummaryLoop messages q ss acc).1) := by
  intro ss
  induction ss with
  | nil =>
    intro acc h
    exact ⟨h, by intro s hs; simp at hs⟩
  | cons s' rest ih =>
    intro acc h
    obtain ⟨ms, seen⟩ := acc
    simp only [findExactSummaryLoop]
    split
    case isTrue hinc =>
      split
      case h_1 idx hidx =>
        split
        case isTrue hcont =>
          have hrest := ih (ms, seen) h
          refine ⟨hrest.1, ?_⟩
          intro s hs hsinc j hj
          rcases List.mem_cons.mp hs with rfl | hmem
          · have hanchor : s.anchorMessageId ∈ seen := by
              simpa using hcont
            obtain ⟨j', hj', hmem'⟩ := h s.anchorMessageId hanchor
            have : j' = j := by rw [hj] at hj'; exact (Option.some.inj hj').symm
            subst this
            exact mem_exactSummaryLoop messages q _ rest (ms, seen) hmem'
          · exact hrest.2 s hmem hsinc j hj
        case isFalse hcont =>
          have hinv : SummaryEntryInv messages
              (ms ++ [⟨s'.anchorMessageId, idx, 100, .exact⟩], s'.anchorMessageId :: seen) := by
            intro id hid
            rcases List.mem_cons.mp hid with rfl | hidseen
            · exact ⟨idx, hidx, by simp⟩
            · obtain ⟨j', hj', hmem'⟩ := h id hidseen
              exact ⟨j', hj', List.mem_append_left _ hmem'⟩
          have hrest := ih _ hinv
          refine ⟨hrest.1, ?_⟩
          intro s hs hsinc j hj
          rcases List.mem_cons.mp hs with rfl | hmem
          · have : idx = j := by rw [hj] at hidx; exact (Option.some.inj hidx).symm
            subst this
            exact mem_exactSummaryLoop messages q _ rest _ (by simp)
          · exact hrest.2 s hmem hsinc j hj
      case h_2 hnone =>
        have hrest := ih (ms, seen) h
        refine ⟨hrest.1, ?_⟩
        intro s hs hsinc j hj
        rcases List.mem_cons.mp hs with rfl | hmem
        · rw [hnone] at hj; exact absurd hj (by simp)
        · exact hrest.2 s hmem hsinc j hj
    case isFalse hinc =>
      have hrest := ih (ms, seen) h
      refine ⟨hrest.1, ?_⟩
      intro s hs hsinc j hj
      rcases List.mem_cons.mp hs with rfl | hmem
      · exact absurd hsinc (by simp_all)
      · exact hrest.2 s hmem hsinc j hj

theorem exactSummaryLoop_orphan (messages : List WithParts) (q : String) :
    ∀ (ss : List CompressSummary) (acc : MatchAcc),
      (∀ s ∈ ss, List.findIdx? (fun m => m.info.id == s.anchorMessageId) messages = none) →
      findExactSummaryLoop messages q ss acc = acc := by
  intro ss
  induction ss with
  | nil => intro acc _; rfl
  | cons s rest ih =>
    intro acc h
    obtain ⟨ms, seen⟩ := acc
    have hs := h s (List.mem_cons_self _ _)
    have hrest : ∀ s' ∈ rest, List.findIdx? (fun m => m.info.id == s'.anchorMessageId) messages = none :=
      fun s' hs' => h s' (List.mem_cons_of_mem _ hs')
    simp only [findExactSummaryLoop, hs]
    split
    · exact ih _ hrest
    · exact ih _ hrest

theorem fuzzySummaryLoop_orphan (messages : List WithParts) (q : String)
    (pr : String → String → Nat) (minScore : Nat) :
    ∀ (ss : List CompressSummary) (acc : MatchAcc),
      (∀ s ∈ ss, List.findIdx? (fun m => m.info.id == s.anchorMessageId) messages = none) →
      findFuzzySummaryLoop messages q pr minScore ss acc = acc := by
  intro ss
  induction ss with
  | nil => intro acc _; rfl
  | cons s rest ih =>
    intro acc h
    obtain ⟨ms, seen⟩ := acc
    have hs := h s (List.mem_cons_self _ _)
    have hrest : ∀ s' ∈ rest, List.findIdx? (fun m => m.info.id == s'.anchorMessageId) messages = none :=
      fun s' hs' => h s' (List.mem_cons_of_mem _ hs')
    simp only [findFuzzySummaryLoop, hs]
    split
    · exact ih _ hrest
    · exact ih _ hrest

theorem exactMessageLoop_noMatch (q : String) :
    ∀ (l : List WithParts) (i : Nat) (acc : MatchAcc),
      (∀ m ∈ l, strIncludes (extractMessageContent m) q = false) →
      findExactMessageLoop q i l acc = acc := by
  intro l
  induction l with
  | nil => intro i acc _; rfl
  | cons m rest ih =>
    intro i acc h
    obtain ⟨ms, seen⟩ := acc
    have hm := h m (List.mem_cons_self _ _)
    have hrest : ∀ m' ∈ rest, strIncludes (extractMessageContent m') q = false :=
      fun m' hm' => h m' (List.mem_cons_of_mem _ hm')
    simp only [findExactMessageLoop, hm]
    split
    · exact ih _ _ hrest
    · exact ih _ _ hrest

theorem fuzzyMessageLoop_low (q : String) (pr : String → String → Nat) (minScore : Nat) :
    ∀ (l : List WithParts) (i : Nat) (acc : MatchAcc),
      (∀ m ∈ l, pr q (extractMessageContent m) < minScore) →
      findFuzzyMessageLoop q pr minScore i l acc = acc := by
  intro l
  induction l with
  | nil => intro i acc _; rfl
  | cons m rest ih =>
    intro i acc h
    obtain ⟨ms, seen⟩ := acc
    have hm : ¬ minScore ≤ pr q (extractMessageContent m) :=
      Nat.not_le.mpr (h m (List.mem_cons_self _ _))
    have hrest : ∀ m' ∈ rest, pr q (extractMessageContent m') < minScore :=
      fun m' hm' => h m' (List.mem_cons_of_mem _ hm')
    simp only [findFuzzyMessageLoop, if_neg hm]
    split
    · exact ih _ _ hrest
    · exact ih _ _ hrest

theorem fuzzySummaryLoop_low (messages : List WithParts) (q : String)
    (pr : String → String → Nat) (minScore : Nat) :
    ∀ (ss : List CompressSummary) (acc : MatchAcc),
      (∀ s ∈ ss, pr q s.summary < minScore) →
      findFuzzySummaryLoop messages q pr minScore ss acc = acc := by
  intro ss
  induction ss with
  | nil => intro acc _; rfl
  | cons s rest ih =>
    intro acc h
    obtain ⟨ms, seen⟩ := acc
    have hs : ¬ minScore ≤ pr q s.summary :=
      Nat.not_le.mpr (h s (List.mem_cons_self _ _))
    have hrest : ∀ s' ∈ rest, pr q s'.summary < minScore :=
      fun s' hs' => h s' (List.mem_cons_of_mem _ hs')
    simp only [findFuzzySummaryLoop, if_neg hs]
    exact ih _ hrest

theorem fuzzySummaryLoop_floor (messages : List WithParts) (q : String)
    (pr : String → String → Nat) (minScore : Nat) :
    ∀ (ss : List CompressSummary) (acc : MatchAcc),
      (∀ e ∈ acc.1, minScore ≤ e.score) →
      ∀ e ∈ (findFuzzySummaryLoop messages q pr minScore ss acc).1, minScore ≤ e.score := by
  intro ss
  induction ss with
  | nil => intro acc h; exact h
  | cons s rest ih =>
    intro acc h
    obtain ⟨ms, seen⟩ := acc
    simp only [findFuzzySummaryLoop]
    split
    case isTrue hsc =>
      split
      · split
        · exact ih _ h
        · refine ih _ ?_
          intro e he
          rcases List.mem_append.mp he with h' | h'
          · exact h e h'
          · simp at h'
            subst h'
            exact hsc
      · exact ih _ h
    case isFalse hsc => exact ih _ h

theorem fuzzyMessageLoop_floor (q : String) (pr : String → String → Nat) (minScore : Nat) :
    ∀ (l : List WithParts) (i : Nat) (acc : MatchAcc),
      (∀ e ∈ acc.1, minScore ≤ e.score) →
      ∀ e ∈ (findFuzzyMessageLoop q pr minScore i l acc).1, minScore ≤ e.score := by
  intro l
  induction l with
  | nil => intro i acc h; exact h
  | cons m rest ih =>
    intro i acc h
    obtain ⟨ms, seen⟩ := acc
    simp only [findFuzzyMessageLoop]
    split
    · exact ih _ _ h
    · split
      case isTrue hsc =>
        refine ih _ _ ?_
        intro e he
        rcases List.mem_append.mp he with h' | h'
        · exact h e h'
        · simp at h'
          subst h'
          exact hsc
      case isFalse hsc => exact ih _ _ h

/-- C1: resolution yields at most one locator — a unique exact candidate
is returned as the result, and two or more exact candidates make
`findStringInMessages` fail with the ambiguous-match error instead of
picking one (the return type itself admits only a single locator). -/
theorem claim_C1_exact_resolution (messages : List WithParts) (q : String)
    (ss : List CompressSummary) (st : String) (cfg : FuzzyConfig)
    (pr : String → String → Nat) :
    (∀ e, findExactMatches messages q ss = [e] →
      findStringInMessages messages q ss st cfg pr =
        (.ok ⟨e.messageId, e.messageIndex⟩, [])) ∧
    (∀ e₁ e₂ rest, findExactMatches messages q ss = e₁ :: e₂ :: rest →
      findStringInMessages messages q ss st cfg pr =
        (.error .multipleExactMatches, [])) := by
  constructor
  · intro e h
    unfold findStringInMessages
    rw [h]
  · intro e₁ e₂ rest h
    unfold findStringInMessages
    rw [h]

/-- Witness for C1 on a two-message conversation: "alpha beta" occurs
exactly once and resolves to `m1`; "a" occurs in both messages and
raises the ambiguous-match error. -/
theorem claim_C1_exact_resolution_witness :
    findStringInMessages [exMsg1, exMsg2] "alpha" [] "startString"
      DEFAULT_FUZZY_CONFIG (fun _ _ => 0) = (.ok ⟨"m1", 0⟩, []) ∧
    findStringInMessages [exMsg1, exMsg2] "a" [] "startString"
      DEFAULT_FUZZY_CONFIG (fun _ _ => 0) = (.error .multipleExactMatches, []) := by
  constructor
  · exact (claim_C1_exact_resolution [exMsg1, exMsg2] "alpha" [] "startString"
      DEFAULT_FUZZY_CONFIG (fun _ _ => 0)).1 ⟨"m1", 0, 100, .exact⟩ (by decide)
  · exact (claim_C1_exact_resolution [exMsg1, exMsg2] "a" [] "startString"
      DEFAULT_FUZZY_CONFIG (fun _ _ => 0)).2 ⟨"m1", 0, 100, .exact⟩ ⟨"m2", 1, 100, .exact⟩
      [] (by decide)

/-- C4: the fuzzy phase runs only when the exact phase produced zero
candidates (with a nonempty exact candidate list the outcome is
independent of the fuzzy scorer); every candidate it keeps scores at
least `minScore`; when every summary and every message scores below
`minScore` no candidate survives; and with zero exact candidates and no
surviving fuzzy candidate, resolution fails with the not-found error. -/
theorem claim_C4_fuzzy_floor (messages : List WithParts) (q : String)
    (ss : List CompressSummary) (st : String) (cfg : FuzzyConfig)
    (pr : String → String → Nat) :
    (∀ e ∈ findFuzzyMatches messages q ss pr cfg.minScore, cfg.minScore ≤ e.score) ∧
    ((∀ s ∈ ss, pr q s.summary < cfg.minScore) →
      (∀ m ∈ messages, pr q (extractMessageContent m) < cfg.minScore) →
      findFuzzyMatches messages q ss pr cfg.minScore = []) ∧
    (findExactMatches messages q ss = [] →
      findFuzzyMatches messages q ss pr cfg.minScore = [] →
      findStringInMessages messages q ss st cfg pr = (.error .notFound, [])) ∧
    (findExactMatches messages q ss ≠ [] → ∀ pr',
      findStringInMessages messages q ss st cfg pr =
        findStringInMessages messages q ss st cfg pr') := by
  refine ⟨?_, ?_, ?_, ?_⟩
  · intro e he
    exact fuzzyMessageLoop_floor q pr cfg.minScore messages 0 _
      (fuzzySummaryLoop_floor messages q pr cfg.minScore ss ([], []) (by simp)) e he
  · intro hs hm
    unfold findFuzzyMatches
    rw [fuzzySummaryLoop_low messages q pr cfg.minScore ss ([], []) hs,
      fuzzyMessageLoop_low q pr cfg.minScore messages 0 ([], []) hm]
  · intro hex hfz
    unfold findStringInMessages
    rw [hex, hfz]
    rfl
  · intro hex pr'
    rcases h : findExactMatches messages q ss with _ | ⟨e, _ | es⟩
    · exact absurd h hex
    · unfold findStringInMessages
      rw [h]
    · unfold findStringInMessages
      rw [h]

/-- Witness for C4: with a scorer that never reaches the floor, a search
string absent from both messages produces no fuzzy candidate and the
not-found error; with one exact candidate present the result ignores the
fuzzy scorer entirely. -/
theorem claim_C4_fuzzy_floor_witness :
    DEFAULT_FUZZY_CONFIG.minScore ≤ (⟨"m1", 0, 90, .fuzzy⟩ : MatchResult).score ∧
    findFuzzyMatches [exMsg1, exMsg2] "zzz" [] (fun _ _ => 40) 85 = [] ∧
    findStringInMessages [exMsg1, exMsg2] "zzz" [] "endString"
      DEFAULT_FUZZY_CONFIG (fun _ _ => 40) = (.error .notFound, []) ∧
    findStringInMessages [exMsg1, exMsg2] "alpha" [] "endString"
      DEFAULT_FUZZY_CONFIG (fun _ _ => 40) =
      findStringInMessages [exMsg1, exMsg2] "alpha" [] "endString"
        DEFAULT_FUZZY_CONFIG (fun _ _ => 99) := by
  refine ⟨?_, ?_, ?_, ?_⟩
  · exact (claim_C4_fuzzy_floor [exMsg1, exMsg2] "zzz" [] "endString" DEFAULT_FUZZY_CONFIG
      (fun _ t => if t == " alpha beta" then 90 else 0)).1 ⟨"m1", 0, 90, .fuzzy⟩ (by decide)
  · exact (claim_C4_fuzzy_floor [exMsg1, exMsg2] "zzz" [] "endString"
      DEFAULT_FUZZY_CONFIG (fun _ _ => 40)).2.1 (by decide) (by decide)
  · exact (claim_C4_fuzzy_floor [exMsg1, exMsg2] "zzz" [] "endString"
      DEFAULT_FUZZY_CONFIG (fun _ _ => 40)).2.2.1 (by decide) (by decide)
  · exact (claim_C4_fuzzy_floor [exMsg1, exMsg2] "alpha" [] "endString"
      DEFAULT_FUZZY_CONFIG (fun _ _ => 40)).2.2.2 (by decide) (fun _ _ => 99)

/-- C3: after sorting the surviving fuzzy candidates by score
descending, a second-best candidate closer than `minGap` to the best
forces the ambiguous-match error even when the best score is unique;
otherwise the best candidate is returned and its fuzzy score is reported
through the logger. -/
theorem claim_C3_confidence_gap (messages : List WithParts) (q : String)
    (ss : List CompressSummary) (st : String) (cfg : FuzzyConfig)
    (pr : String → String → Nat) :
    findExactMatches messages q ss = [] →
    ((∀ best second rest,
        sortByScoreDesc (findFuzzyMatches messages q ss pr cfg.minScore) =
          best :: second :: rest →
        (((best.score : Int) - (second.score : Int) < (cfg.minGap : Int)) →
          findStringInMessages messages q ss st cfg pr =
            (.error .ambiguousFuzzyMatch, [])) ∧
        (¬((best.score : Int) - (second.score : Int) < (cfg.minGap : Int)) →
          findStringInMessages messages q ss st cfg pr =
            (.ok ⟨best.messageId, best.messageIndex⟩, [fuzzyLog st best]))) ∧
     (∀ best, sortByScoreDesc (findFuzzyMatches messages q ss pr cfg.minScore) = [best] →
        findStringInMessages messages q ss st cfg pr =
          (.ok ⟨best.messageId, best.messageIndex⟩, [fuzzyLog st best]))) := by
  intro hex
  constructor
  · intro best second rest hsorted
    constructor
    · intro hgap
      unfold findStringInMessages
      rw [hex, hsorted]
      simp only [if_pos hgap]
    · intro hgap
      unfold findStringInMessages
      rw [hex, hsorted]
      simp only [if_neg hgap]
  · intro best hsorted
    unfold findStringInMessages
    rw [hex, hsorted]

/-- Witness for C3: scorer 90 vs 88 has a unique best but a gap of 2,
under the default gap 15 — ambiguous; scorer 100 vs 85 has gap exactly
15 — accepted, with the fuzzy confidence logged. -/
theorem claim_C3_confidence_gap_witness :
    findStringInMessages [exMsg1, exMsg2] "zzz" [] "startString" DEFAULT_FUZZY_CONFIG
      (fun _ t => if t == " alpha beta" then 90 else 88) =
      (.error .ambiguousFuzzyMatch, []) ∧
    findStringInMessages [exMsg1, exMsg2] "zzz" [] "startString" DEFAULT_FUZZY_CONFIG
      (fun _ t => if t == " alpha beta" then 100 else 85) =
      (.ok ⟨"m1", 0⟩, ["Fuzzy matched startString with 100% confidence at message index 0"]) ∧
    findStringInMessages [exMsg1, exMsg2] "zzz" [] "endString" DEFAULT_FUZZY_CONFIG
      (fun _ t => if t == " alpha beta" then 90 else 0) =
      (.ok ⟨"m1", 0⟩, ["Fuzzy matched endString with 90% confidence at message index 0"]) := by
  refine ⟨?_, ?_, ?_⟩
  · exact (((claim_C3_confidence_gap [exMsg1, exMsg2] "zzz" [] "startString"
      DEFAULT_FUZZY_CONFIG (fun _ t => if t == " alpha beta" then 90 else 88))
      (by decide)).1 ⟨"m1", 0, 90, .fuzzy⟩ ⟨"m2", 1, 88, .fuzzy⟩ [] (by decide)).1 (by decide)
  · exact (((claim_C3_confidence_gap [exMsg1, exMsg2] "zzz" [] "startString"
      DEFAULT_FUZZY_CONFIG (fun _ t => if t == " alpha beta" then 100 else 85))
      (by decide)).1 ⟨"m1", 0, 100, .fuzzy⟩ ⟨"m2", 1, 85, .fuzzy⟩ [] (by decide)).2 (by decide)
  · exact ((claim_C3_confidence_gap [exMsg1, exMsg2] "zzz" [] "endString"
      DEFAULT_FUZZY_CONFIG (fun _ t => if t == " alpha beta" then 90 else 0))
      (by decide)).2 ⟨"m1", 0, 90, .fuzzy⟩ (by decide)

/-- C5: in the exact phase summaries are scanned first — a summary whose
text contains the search string contributes the candidate anchored at
its anchor message (at the first index carrying that identifier),
independently of the message contents — and the candidate list never
holds two entries with the same message identifier, so a raw message
whose identifier was claimed by a summary hit adds nothing. -/
theorem claim_C5_summary_priority (messages : List WithParts) (q : String)
    (ss : List CompressSummary) :
    ((findExactMatches messages q ss).map MatchResult.messageId).Nodup ∧
    (∀ s ∈ ss, strIncludes s.summary q = true →
      ∀ j, List.findIdx? (fun m => m.info.id == s.anchorMessageId) messages = some j →
        (⟨s.anchorMessageId, j, 100, .exact⟩ : MatchResult) ∈
          findExactMatches messages q ss) := by
  constructor
  · exact nodup_findExactMatches messages q ss
  · intro s hs hinc j hj
    have hinv : SummaryEntryInv messages (([], []) : MatchAcc) := by
      intro id hid; simp at hid
    have hmem := (exactSummaryLoop_entry messages q ss ([], []) hinv).2 s hs hinc j hj
    exact mem_exactMessageLoop q _ messages 0 _ hmem

/-- Witness for C5: the search string "needle" occurs only in the
compress summary anchored at `m2`; the exact candidate list is exactly
the anchor entry, and its identifiers are duplicate-free. -/
theorem claim_C5_summary_priority_witness :
    ((findExactMatches [exMsg1, exMsg2] "needle" [exSummary]).map
      MatchResult.messageId).Nodup ∧
    (⟨"m2", 1, 100, .exact⟩ : MatchResult) ∈
      findExactMatches [exMsg1, exMsg2] "needle" [exSummary] := by
  refine ⟨(claim_C5_summary_priority [exMsg1, exMsg2] "needle" [exSummary]).1, ?_⟩
  exact (claim_C5_summary_priority [exMsg1, exMsg2] "needle" [exSummary]).2
    exSummary (by decide) (by decide) 1 (by decide)

/-- C9: a compress summary whose anchor identifier matches no message
contributes no candidate in either phase — with only orphaned summaries
both phases behave as if the summary list were empty, and when no raw
message matches either (no exact containment, fuzzy scores below the
floor), resolution fails with the not-found error. -/
theorem claim_C9_orphaned_summary (messages : List WithParts) (q : String)
    (ss : List CompressSummary) (st : String) (cfg : FuzzyConfig)
    (pr : String → String → Nat) :
    (∀ s ∈ ss, ∀ m ∈ messages, m.info.id ≠ s.anchorMessageId) →
    (findExactMatches messages q ss = findExactMatches messages q [] ∧
     findFuzzyMatches messages q ss pr cfg.minScore =
       findFuzzyMatches messages q [] pr cfg.minScore ∧
     ((∀ m ∈ messages, strIncludes (extractMessageContent m) q = false) →
      (∀ m ∈ messages, pr q (extractMessageContent m) < cfg.minScore) →
      findStringInMessages messages q ss st cfg pr = (.error .notFound, []))) := by
  intro horphan
  have hnone : ∀ s ∈ ss,
      List.findIdx? (fun m => m.info.id == s.anchorMessageId) messages = none := by
    intro s hs
    rw [List.findIdx?_eq_none_iff]
    intro m hm
    simpa using horphan s hs m hm
  refine ⟨?_, ?_, ?_⟩
  · unfold findExactMatches
    rw [exactSummaryLoop_orphan messages q ss ([], []) hnone]
    rfl
  · unfold findFuzzyMatches
    rw [fuzzySummaryLoop_orphan messages q pr cfg.minScore ss ([], []) hnone]
    rfl
  · intro hexact hfuzzy
    have hex : findExactMatches messages q ss = [] := by
      unfold findExactMatches
      rw [exactSummaryLoop_orphan messages q ss ([], []) hnone,
        exactMessageLoop_noMatch q messages 0 ([], []) hexact]
    have hfz : findFuzzyMatches messages q ss pr cfg.minScore = [] := by
      unfold findFuzzyMatches
      rw [fuzzySummaryLoop_orphan messages q pr cfg.minScore ss ([], []) hnone,
        fuzzyMessageLoop_low q pr cfg.minScore messages 0 ([], []) hfuzzy]
    unfold findStringInMessages
    rw [hex, hfz]
    rfl

/-- Witness for C9: a summary containing the search string but anchored
at the nonexistent message `m9` yields no candidate, and with no raw
match the resolution fails with the not-found error. -/
theorem claim_C9_orphaned_summary_witness :
    findExactMatches [exMsg1, exMsg2] "needle" [exOrphan] =
      findExactMatches [exMsg1, exMsg2] "needle" [] ∧
    findStringInMessages [exMsg1, exMsg2] "needle" [exOrphan] "startString"
      DEFAULT_FUZZY_CONFIG (fun _ _ => 0) = (.error .notFound, []) := by
  constructor
  · exact ((claim_C9_orphaned_summary [exMsg1, exMsg2] "needle" [exOrphan] "startString"
      DEFAULT_FUZZY_CONFIG (fun _ _ => 0)) (by decide)).1
  · exact ((claim_C9_orphaned_summary [exMsg1, exMsg2] "needle" [exOrphan] "startString"
      DEFAULT_FUZZY_CONFIG (fun _ _ => 0)) (by decide)).2.2 (by decide) (by decide)

theorem piecesConcat_append (l1 l2 : List String) :
    piecesConcat (l1 ++ l2) = piecesConcat l1 ++ piecesConcat l2 := by
  apply String.ext
  simp [piecesConcat]

theorem extractPart_eq_amended (p : Part) :
    extractPart p = piecesConcat (partPiecesAmended p) := by
  cases p with
  | text t => rcases t with _ | (s | ⟨b, s⟩) <;> rfl
  | reasoning t => rcases t with _ | (s | ⟨b, s⟩) <;> rfl
  | tool c st =>
    rcases st with _ | ⟨status, output, error, input⟩
    · rfl
    · simp only [extractPart, partPiecesAmended]
      rw [piecesConcat_append]
      congr 1
      · split_ifs <;> rcases output with _ | (s | ⟨b, s⟩) <;>
          rcases error with _ | (s' | ⟨b', s'⟩) <;> rfl
      · rcases input with _ | v
        · rfl
        · cases hv : v.isTruthy <;> simp [hv, piecesConcat] <;>
            (apply String.ext; simp)
  | compaction t => rcases t with _ | (s | ⟨b, s⟩) <;> rfl
  | subtask s r =>
    show _ = piecesConcat (specTextPiece s ++ specTextPiece r)
    rw [piecesConcat_append]
    rcases s with _ | (t | ⟨b, t⟩) <;> rcases r with _ | (t' | ⟨b', t'⟩) <;> rfl
  | other => rfl

theorem extract_foldl_amended (l : List Part) (a : String) :
    l.foldl (fun c p => c ++ extractPart p) a =
      a ++ piecesConcat (l.flatMap partPiecesAmended) := by
  induction l generalizing a with
  | nil =>
    simp only [List.flatMap_nil, List.foldl_nil]
    rw [show piecesConcat [] = "" from rfl, String.append_empty]
  | cons p rest ih =>
    simp only [List.foldl_cons, List.flatMap_cons, piecesConcat_append]
    rw [ih, extractPart_eq_amended, String.append_assoc]

/-- C8 amended: the Content Extractor equals the spec's projection with
the truthiness guard on the tool input made explicit — it concatenates,
space-separated and in part order, text and reasoning text, the tool
output-or-error followed by the truthy input (JSON-stringified when not
a string), the compaction summary, and the subtask summary then result,
skipping non-string or absent fields. -/
theorem claim_C8_extractor (msg : WithParts) :
    extractMessageContent msg = extractSpecAmended msg := by
  unfold extractMessageContent extractSpecAmended
  rw [extract_foldl_amended, String.empty_append]

/-- Counterexample to C8 as stated: the source guards the tool input
with a truthiness test, so the falsy input `0` is skipped while the
claim's reading would append its stringification. -/
theorem claim_C8_extractor_counterexample :
    extractMessageContent exToolMsg ≠ extractSpecClaimed exToolMsg := by decide

/-- C10: `execute` reaches the prune operation exactly when `ids` is a
nonempty array of non-whitespace strings and `distillation` a nonempty
array of strings — the lengths of the two arrays are never compared, so
the mismatched input with two ids and one distillation string passes
validation and invokes the prune operation. -/
theorem claim_C10_distill_validation :
    (∀ ids distillation, (∃ p, distillExecute ids distillation = .ok p) ↔
      ((∃ xs, ids = .arr xs ∧ xs ≠ [] ∧ ∀ x ∈ xs, validIdEntry x = true) ∧
       (∃ ds, distillation = .arr ds ∧ ds ≠ [] ∧ ∀ d ∈ ds, isStringEntry d = true))) ∧
    (∀ xs ds, xs ≠ [] → ds ≠ [] → (∀ x ∈ xs, validIdEntry x = true) →
      (∀ d ∈ ds, isStringEntry d = true) →
      distillExecute (.arr xs) (.arr ds) = .ok (xs, ds)) ∧
    distillExecute (.arr [.jstr "1", .jstr "2"]) (.arr [.jstr "summary one"]) =
      .ok ([.jstr "1", .jstr "2"], [.jstr "summary one"]) := by
  refine ⟨?_, ?_, by rfl⟩
  · intro ids distillation
    rcases ids with _ | _ | xs <;> rcases distillation with _ | _ | ds <;>
      simp only [distillExecute] <;> try (simp; done)
    all_goals split_ifs <;> simp_all [List.isEmpty_iff, List.all_eq_true]
  · intro xs ds hxs hds hx hd
    have h1 : xs.isEmpty = false := by simpa [List.isEmpty_iff] using hxs
    have h2 : xs.all validIdEntry = true := List.all_eq_true.mpr hx
    have h3 : ds.isEmpty = false := by simpa [List.isEmpty_iff] using hds
    have h4 : ds.all isStringEntry = true := List.all_eq_true.mpr hd
    simp [distillExecute, h1, h2, h3, h4]

/-- Witness for C10: a one-id, two-distillation call (mismatched
lengths) passes validation and reaches the prune operation. -/
theorem claim_C10_distill_validation_witness :
    distillExecute (.arr [.jstr "7"]) (.arr [.jstr "a", .jstr "b"]) =
      .ok ([.jstr "7"], [.jstr "a", .jstr "b"]) :=
  claim_C10_distill_validation.2.1 [.jstr "7"] [.jstr "a", .jstr "b"]
    (by decide) (by decide) (by decide) (by decide)

/-- C2: a body with a top-level system field and a messages array but no
inference-config block is dispatched to the Anthropic descriptor and
never to the plain-messages (OpenAI Chat) one: Responses fails on the
messages array, Bedrock on the absent inference config, and the chain
stops at the first matching predicate. -/
theorem claim_C2_dispatch_priority (b : RequestBody) :
    b.system.isSome = true → b.messagesIsArray = true → b.inferenceConfig = none →
    detectFormat b = some .anthropic ∧ detectFormat b ≠ some .openaiChat := by
  intro hsys hmsg hcfg
  have h1 : openaiResponsesDetect b = false := by simp [openaiResponsesDetect, hmsg]
  have h2 : bedrockDetect b = false := by simp [bedrockDetect, hcfg]
  have h3 : anthropicDetect b = true := by simp [anthropicDetect, hsys, hmsg]
  constructor
  · simp [detectFormat, h1, h2, h3]
  · simp [detectFormat, h1, h2, h3]

/-- Witness for C2: the concrete Anthropic-shaped body dispatches to the
Anthropic descriptor, not the plain-messages one. -/
theorem claim_C2_dispatch_priority_witness :
    detectFormat exBody1 = some .anthropic ∧ detectFormat exBody1 ≠ some .openaiChat :=
  claim_C2_dispatch_priority exBody1 (by decide) (by decide) (by decide)

/-- C6: injecting system text converts a string channel to the two-block
list original-then-injection, appends a new text block to a list
channel, initializes an absent channel to the empty list before
appending, and returns true. -/
theorem claim_C6_system_injection (b : RequestBody) (injection : String) :
    (∀ s, b.system = some (.str s) →
      (injectSystemMessage b injection).1.system =
        some (.blocks [SysBlock.mkText s, SysBlock.mkText injection])) ∧
    (∀ bs, b.system = some (.blocks bs) →
      (injectSystemMessage b injection).1.system =
        some (.blocks (bs ++ [SysBlock.mkText injection]))) ∧
    (b.system = none →
      (injectSystemMessage b injection).1.system =
        some (.blocks [SysBlock.mkText injection])) ∧
    (injectSystemMessage b injection).2 = true := by
  refine ⟨?_, ?_, ?_, rfl⟩
  · intro s h
    simp [injectSystemMessage, h]
  · intro bs h
    simp [injectSystemMessage, h]
  · intro h
    simp [injectSystemMessage, h]

/-- Witness for C6 on the test file's bodies: injection into a string
channel, a one-block list channel, and an absent channel. -/
theorem claim_C6_system_injection_witness :
    (injectSystemMessage ⟨some (.str "Original system"), some (.arr []), none, none, none⟩
      "Injected message").1.system =
      some (.blocks [SysBlock.mkText "Original system", SysBlock.mkText "Injected message"]) ∧
    (injectSystemMessage ⟨some (.blocks [SysBlock.mkText "Original"]), some (.arr []), none,
      none, none⟩ "Injected").1.system =
      some (.blocks [SysBlock.mkText "Original", SysBlock.mkText "Injected"]) ∧
    (injectSystemMessage ⟨none, some (.arr []), none, none, none⟩ "Injected").1.system =
      some (.blocks [SysBlock.mkText "Injected"]) ∧
    (injectSystemMessage exBody1 "Injected").2 = true := by
  refine ⟨?_, ?_, ?_, ?_⟩
  · exact (claim_C6_system_injection _ "Injected message").1 "Original system" rfl
  · exact (claim_C6_system_injection _ "Injected").2.1 [SysBlock.mkText "Original"] rfl
  · exact (claim_C6_system_injection _ "Injected").2.2.1 rfl
  · exact (claim_C6_system_injection exBody1 "Injected").2.2.2

theorem replaceBlock_frame (toolId newContent : String) (b : ContentBlock) :
    (replaceBlock toolId newContent b).type = b.type ∧
    (replaceBlock toolId newContent b).tool_use_id = b.tool_use_id ∧
    (replaceBlock toolId newContent b).is_error = b.is_error ∧
    (replaceBlock toolId newContent b).cache_control = b.cache_control ∧
    (blockMatches toolId b = true →
      (replaceBlock toolId newContent b).content = some (.jstr newContent)) ∧
    (blockMatches toolId b = false → replaceBlock toolId newContent b = b) := by
  unfold replaceBlock
  split <;> simp_all

theorem replaceInContent_of_noMatch (toolId newContent : String) (c : MsgContent)
    (h : contentHasMatch toolId c = false) :
    replaceInContent toolId newContent c = c := by
  cases c with
  | str s => rfl
  | otherVal => rfl
  | blocks bs =>
    simp only [contentHasMatch, List.any_eq_false] at h
    simp only [replaceInContent]
    congr 1
    induction bs with
    | nil => rfl
    | cons blk rest ih =>
      have hblk : blockMatches toolId blk = false := by
        simpa using h blk (List.mem_cons_self _ _)
      simp only [List.map_cons]
      rw [(replaceBlock_frame toolId newContent blk).2.2.2.2.2 hblk,
        ih (fun b hb => h b (List.mem_cons_of_mem _ hb))]

/-- C7: `replaceToolOutput` reports a miss as `false` with the body left
byte-identical; on any input it preserves the number of entries, every
entry's role, and every non-matching entry's content; inside a block
array it overwrites only the `content` field of matching tool-result
blocks, leaving `type`, `tool_use_id`, `is_error` and `cache_control`
untouched and non-matching blocks unchanged; and it reports `true`
exactly when a matching tool-result block exists. -/
theorem claim_C7_replace_only_content (msgs : List ReqMessage) (toolId newContent : String) :
    ((replaceToolOutput msgs toolId newContent).2 = true ↔
      ∃ m ∈ msgs, ∃ bs, m.content = .blocks bs ∧
        ∃ blk ∈ bs, blockMatches toolId blk = true) ∧
    ((replaceToolOutput msgs toolId newContent).2 = false →
      (replaceToolOutput msgs toolId newContent).1 = msgs) ∧
    ((replaceToolOutput msgs toolId newContent).1.length = msgs.length) ∧
    (∀ i (hi : i < msgs.length) (hi2 : i < (replaceToolOutput msgs toolId newContent).1.length),
      ((replaceToolOutput msgs toolId newContent).1[i].role = msgs[i].role) ∧
      (contentHasMatch toolId msgs[i].content = false →
        (replaceToolOutput msgs toolId newContent).1[i].content = msgs[i].content) ∧
      (∀ bs, msgs[i].content = .blocks bs →
        ∃ bs2, (replaceToolOutput msgs toolId newContent).1[i].content = .blocks bs2 ∧
          bs2.length = bs.length ∧
          ∀ j (hj : j < bs.length) (hj2 : j < bs2.length),
            bs2[j].type = bs[j].type ∧
            bs2[j].tool_use_id = bs[j].tool_use_id ∧
            bs2[j].is_error = bs[j].is_error ∧
            bs2[j].cache_control = bs[j].cache_control ∧
            (blockMatches toolId bs[j] = true →
              bs2[j].content = some (.jstr newContent)) ∧
            (blockMatches toolId bs[j] = false → bs2[j] = bs[j]))) := by
  refine ⟨?_, ?_, ?_, ?_⟩
  · simp only [replaceToolOutput, List.any_eq_true]
    constructor
    · rintro ⟨m, hm, hmatch⟩
      rcases hc : m.content with s | bs | _ <;> rw [hc] at hmatch <;>
        simp [contentHasMatch] at hmatch
      obtain ⟨blk, hblk, hbm⟩ := hmatch
      exact ⟨m, hm, bs, hc, blk, hblk, hbm⟩
    · rintro ⟨m, hm, bs, hc, blk, hblk, hbm⟩
      refine ⟨m, hm, ?_⟩
      rw [hc]
      simp only [contentHasMatch, List.any_eq_true]
      exact ⟨blk, hblk, hbm⟩
  · intro h
    simp only [replaceToolOutput, List.any_eq_false] at h ⊢
    have : ∀ m ∈ msgs,
        ({ m with content := replaceInContent toolId newContent m.content } : ReqMessage) = m := by
      intro m hm
      have := replaceInContent_of_noMatch toolId newContent m.content (by simpa using h m hm)
      simp [this]
    calc msgs.map _ = msgs.map id := List.map_congr_left this
    _ = msgs := List.map_id msgs
  · simp [replaceToolOutput]
  · intro i hi hi2
    have hg : (replaceToolOutput msgs toolId newContent).1[i] =
        { msgs[i] with content := replaceInContent toolId newContent msgs[i].content } := by
      simp [replaceToolOutput]
    refine ⟨by rw [hg], ?_, ?_⟩
    · intro h
      rw [hg]
      simp [replaceInContent_of_noMatch toolId newContent _ h]
    · intro bs hbs
      refine ⟨bs.map (replaceBlock toolId newContent), ?_, by simp, ?_⟩
      · rw [hg]
        simp [hbs, replaceInContent]
      · intro j hj hj2
        have hgj : (bs.map (replaceBlock toolId newContent))[j] =
            replaceBlock toolId newContent bs[j] := List.getElem_map _
        rw [hgj]
        exact replaceBlock_frame toolId newContent bs[j]

/-- Witness for C7: replacing `toolu_456` rewrites only that block's
content to `[PRUNED]` and reports true; the sibling fields survive, and
a miss on `toolu_999` reports false with the message list unchanged. -/
theorem claim_C7_replace_only_content_witness :
    (replaceToolOutput [exReplaceMsg] "toolu_456" "[PRUNED]").2 = true ∧
    (replaceToolOutput [exReplaceMsg] "toolu_456" "[PRUNED]").1 =
      [⟨"user", .blocks [⟨"tool_result", some "toolu_456", some (.jstr "[PRUNED]"),
        some false, some "ephemeral"⟩]⟩] ∧
    (replaceToolOutput [exReplaceMsg] "toolu_999" "[PRUNED]").2 = false ∧
    (replaceToolOutput [exReplaceMsg] "toolu_999" "[PRUNED]").1 = [exReplaceMsg] ∧
    (replaceToolOutput [exReplaceMsg] "toolu_456" "[PRUNED]").1[0].role =
      [exReplaceMsg][0].role := by
  refine ⟨?_, by decide, by decide, ?_, ?_⟩
  · exact (claim_C7_replace_only_content [exReplaceMsg] "toolu_456" "[PRUNED]").1.mpr
      ⟨exReplaceMsg, by decide, [⟨"tool_result", some "toolu_456",
        some (.jstr "Original content"), some false, some "ephemeral"⟩], by decide,
        ⟨"tool_result", some "toolu_456", some (.jstr "Original content"), some false,
          some "ephemeral"⟩, by decide, by decide⟩
  · exact (claim_C7_replace_only_content [exReplaceMsg] "toolu_999" "[PRUNED]").2.1 (by decide)
  · exact ((claim_C7_replace_only_content [exReplaceMsg] "toolu_456" "[PRUNED]").2.2.2 0
      (by decide) (by decide)).1

end DCP
